import Mathlib

set_option maxRecDepth 100000

/-
Verification of the wacksy WARC indexing core.

The development shallowly embeds the functions of src/indexer.rs over
character lists. The original file is byte addressed; headers and all
inputs of interest here are ASCII, where byte offsets and character
offsets coincide, so the model treats the file as a character sequence.
Rust functions that can panic are modelled with Option results where
none stands for a panic; an iterator that merely ends is modelled by
an empty tail, so the two outcomes stay distinguishable.
-/

namespace Wacksy

/-- Whitespace test matching the characters the Rust trim functions
remove from ASCII text. -/
def wsp (c : Char) : Bool :=
  c = ' ' || c = '\t' || c = '\r' || c = '\n'

/-- ASCII lowercasing of one character, the model of the Rust
to_ascii_lowercase function. -/
def toLowerAscii (c : Char) : Char :=
  if 'A' ≤ c && c ≤ 'Z' then Char.ofNat (c.toNat + 32) else c

/-- Decimal digit test. -/
def isDigitC (c : Char) : Bool :=
  '0' ≤ c && c ≤ '9'

/-- Membership test for a character in a list. -/
def hasChar (c : Char) : List Char → Bool
  | [] => false
  | x :: t => if x = c then true else hasChar c t

/-- Test whether the first list is a leading segment of the second,
the model of the Rust starts_with test on strings. -/
def isPrefixL : List Char → List Char → Bool
  | [], _ => true
  | _ :: _, [] => false
  | a :: as, b :: bs => if a = b then isPrefixL as bs else false

/-- Split at the first occurrence of a separator character, the model
of the Rust split_once function: the separator itself is dropped and
none is returned when the separator does not occur. -/
def splitOnceList (sep : Char) : List Char → Option (List Char × List Char)
  | [] => none
  | c :: t =>
    if c = sep then some ([], t)
    else (splitOnceList sep t).map (fun p => (c :: p.1, p.2))

/-- Split on every occurrence of a separator character, the model of
the Rust split function: an empty input yields one empty piece. -/
def splitChar (sep : Char) : List Char → List (List Char)
  | [] => [[]]
  | c :: t =>
    if c = sep then [] :: splitChar sep t
    else
      match splitChar sep t with
      | [] => [[c]]
      | l :: ls => (c :: l) :: ls

/-- Split at the first occurrence of a multi-character pattern,
returning the text before it and the text after it. -/
def splitFirstSeq (pat : List Char) : List Char → Option (List Char × List Char)
  | [] => if pat = [] then some ([], []) else none
  | c :: t =>
    if isPrefixL pat (c :: t) then some ([], (c :: t).drop pat.length)
    else (splitFirstSeq pat t).map (fun p => (c :: p.1, p.2))

/-- Join pieces with a comma between them, the model of the Rust
join with a comma separator. -/
def joinComma : List (List Char) → List Char
  | [] => []
  | [p] => p
  | p :: ps => p ++ ',' :: joinComma ps

/-- Trim whitespace from both ends, the model of the Rust trim. -/
def trimL (l : List Char) : List Char :=
  ((l.dropWhile wsp).reverse.dropWhile wsp).reverse

/-- Trim whitespace from the right end only, the model of the Rust
trim_end used on the assembled index text. -/
def trimEndL (l : List Char) : List Char :=
  (l.reverse.dropWhile wsp).reverse

/-- Remove one trailing carriage return, as the Rust lines iterator
does on each produced line. -/
def stripCrL (l : List Char) : List Char :=
  if l.getLast? = some '\r' then l.dropLast else l

/-- Model of the Rust lines iterator: split on every newline, drop a
final empty piece produced by a trailing newline, and strip one
trailing carriage return from each line. -/
def linesRust (l : List Char) : List (List Char) :=
  let ps := splitChar '\n' l
  let ps := if ps.getLast? = some [] then ps.dropLast else ps
  ps.map stripCrL

/-- Numeric value of a digit string. -/
def digitsToNat (l : List Char) : Nat :=
  l.foldl (fun acc c => acc * 10 + (c.toNat - 48)) 0

/-- Model of the Rust usize from_str parse: an optional plus sign,
then at least one digit, with the value below 2 to the 64. A none
result models the Err case, whose unwrap panics. -/
def rustParseUsizeL (l : List Char) : Option Nat :=
  let l := match l with
    | '+' :: t => t
    | _ => l
  if l = [] then none
  else if l.all isDigitC then
    if digitsToNat l < 18446744073709551616 then some (digitsToNat l) else none
  else none

/-- Read one line from the input, up to and including a newline, or
to the end of the input, the model of the Rust read_line call used in
read_header_block. Returns the line and the remaining input. -/
def readLineChars : List Char → List Char × List Char
  | [] => ([], [])
  | c :: rest =>
    if c = '\n' then ([c], rest)
    else
      let p := readLineChars rest
      (c :: p.1, p.2)

/-- Loop of read_header_block from src/indexer.rs: lines are
accumulated until a line of exactly carriage return and newline, and
none is returned when the input ends first. The fuel argument bounds
the iteration; every iteration consumes at least one character, so a
fuel of one more than the input length is always enough. -/
def readHeaderGo : Nat → List Char → List Char → Option (List Char × List Char)
  | 0, _, _ => none
  | fuel + 1, input, acc =>
    let p := readLineChars input
    if p.1.length = 0 then none
    else if p.1 = ['\r', '\n'] then some (acc ++ p.1, p.2)
    else readHeaderGo fuel p.2 (acc ++ p.1)

/-- Model of read_header_block from src/indexer.rs: returns the
header block, terminator line included, and the rest of the input. -/
def read_header_block (input : List Char) : Option (List Char × List Char) :=
  readHeaderGo (input.length + 1) input []

/-- Decomposition of a character stream into the lines the read_line
loop would produce: each piece ends with a newline except possibly
the last. Used only to state properties of read_header_block. -/
def linesOf (l : List Char) : List (List Char) :=
  l.foldr
    (fun c ls =>
      if c = '\n' then [c] :: ls
      else
        match ls with
        | [] => [[c]]
        | l0 :: ls0 => (c :: l0) :: ls0)
    []

/-- Specification-side reading of a header block from a line list:
the concatenation of the lines up to and including the first line
that is exactly carriage return and newline, or none when no such
line occurs. -/
def headerBlockSpec : List (List Char) → Option (List Char)
  | [] => none
  | l :: rest =>
    if l = ['\r', '\n'] then some l
    else (headerBlockSpec rest).map (fun b => l ++ b)

/-- WARC record kinds recognised by src/indexer.rs. -/
inductive WarcRecordType
  | Response
  | Revisit
  | Resource
  | Metadata
deriving DecidableEq, Repr

/-- The IndexRecord structure of src/indexer.rs. -/
structure IndexRecord where
  offset : Nat
  content_length : Nat
  header_length : Nat
  digest : String
  timestamp : String
  record_type : Option WarcRecordType
  url : String
  is_page : Bool
  is_http : Bool
  http_status_code : Nat
  mime_type : String
  file_name : String
deriving DecidableEq, Repr, Inhabited

/-- The IndexRecord new constructor, with the offset and file name the
iterator stamps on the fresh record before parsing. -/
def initRecord (name : String) (pos : Nat) : IndexRecord :=
  { offset := pos
    content_length := 0
    header_length := 0
    digest := ""
    timestamp := ""
    record_type := none
    url := ""
    is_page := false
    is_http := false
    http_status_code := 0
    mime_type := ""
    file_name := name }

/-- Test from the iterator body: the record carries an embedded HTTP
message when its type is response or revisit and is_http is set. -/
def isHttpRecord (r : IndexRecord) : Bool :=
  (r.record_type = some .Response || r.record_type = some .Revisit) && r.is_http

/-- Retention test of the indexer function: the record type is
present, the mime type is non-empty and the status code is not 0. -/
def retainB (r : IndexRecord) : Bool :=
  r.record_type.isSome && !r.mime_type.isEmpty && r.http_status_code != 0

/-- Header grammars distinguished by process_headers. -/
inductive HeaderKind
  | warc
  | http
deriving DecidableEq

/-- Parse of the WARC-Type value in process_headers. -/
def parseWarcType (value : List Char) : Option WarcRecordType :=
  if value = "response".toList then some .Response
  else if value = "revisit".toList then some .Revisit
  else if value = "resource".toList then some .Resource
  else if value = "metadata".toList then some .Metadata
  else none

/-- Test from process_headers: the first sixteen characters of the
content type equal application/http. -/
def isAppHttp (value : List Char) : Bool :=
  decide (16 ≤ value.length) && value.take 16 = "application/http".toList

/-- Field loop of process_headers: each line is split at the first
colon, with a missing colon or an unparseable integer modelled as
none for the panicking unwrap in the source. -/
def processFields (k : HeaderKind) : IndexRecord → List (List Char) → Option IndexRecord
  | r, [] => some r
  | r, line :: rest =>
    match splitOnceList ':' line with
    | none => none
    | some (k0, v0) =>
      let key := k0.map toLowerAscii
      let value := trimL v0
      match k with
      | .warc =>
        if key = "content-length".toList then
          match rustParseUsizeL value with
          | none => none
          | some n => processFields k { r with content_length := n } rest
        else if key = "warc-payload-digest".toList then
          processFields k { r with digest := String.mk value } rest
        else if key = "warc-date".toList then
          processFields k { r with timestamp := String.mk value } rest
        else if key = "warc-target-uri".toList then
          processFields k { r with url := String.mk value } rest
        else if key = "warc-type".toList then
          processFields k { r with record_type := parseWarcType value } rest
        else if key = "content-type".toList then
          processFields k (if isAppHttp value then { r with is_http := true } else r) rest
        else
          processFields k r rest
      | .http =>
        if key = "content-type".toList then
          processFields k { r with mime_type := String.mk value } rest
        else
          processFields k r rest

/-- Final step of process_headers: the page flag is raised when the
mime type is text/html and the status code lies in the half open
range from 200 to 299. -/
def setIsPage (r : IndexRecord) : IndexRecord :=
  if r.mime_type = "text/html" ∧ 200 ≤ r.http_status_code ∧ r.http_status_code < 299 then
    { r with is_page := true }
  else r

/-- Model of process_headers from src/indexer.rs. A none result
models a panic: a block shorter than the examined slice, a first
line that is neither WARC nor HTTP, a header line without a colon,
or an unparseable integer. -/
def process_headers (r : IndexRecord) (buffer : List Char) : Option IndexRecord :=
  if buffer.length < 4 then none
  else if buffer.take 4 = "WARC".toList then
    (processFields .warc r ((linesRust (trimL buffer)).drop 1)).map setIsPage
  else if buffer.take 4 = "HTTP".toList then
    if buffer.length < 12 then none
    else
      match rustParseUsizeL ((buffer.drop 9).take 3) with
      | none => none
      | some code =>
        (processFields .http { r with http_status_code := code }
          ((linesRust (trimL buffer)).drop 1)).map setIsPage
  else none

/-- Outcome of parsing one record from decompressed content: the
iterator can end quietly, the program can panic, or a record is
produced together with the cursor advance the plain mode applies,
namely the header length plus the content length plus four, taken
from the record as it stands after the WARC header pass. -/
inductive FrameResult
  | stop
  | panicR
  | record (r : IndexRecord) (advance : Nat)
deriving DecidableEq, Repr

/-- Shared body of the iterator next method from src/indexer.rs: read
the WARC header block, check the WARC/1.1 magic, process the WARC
headers, and for an HTTP bearing response or revisit record read and
process the embedded HTTP header block. A missing header terminator
ends the iteration; a failed magic check also ends it, returning no
error, exactly as the source does. -/
def parseRecordAt (name : String) (offset : Nat) (content : List Char) : FrameResult :=
  match read_header_block content with
  | none => .stop
  | some (block, rest) =>
    if isPrefixL ("WARC/1.1".toList) block then
      match process_headers { initRecord name offset with header_length := block.length } block with
      | none => .panicR
      | some r1 =>
        let advance := r1.header_length + r1.content_length + 4
        if isHttpRecord r1 then
          match read_header_block rest with
          | none => .stop
          | some (hblock, _) =>
            match process_headers r1 hblock with
            | none => .panicR
            | some r2 => .record r2 advance
        else .record r1 advance
    else .stop

/-- Plain mode driver of the WarcReader iterator: the cursor starts
at zero and advances by the header length plus the content length
plus four after each record. Fuel bounds the loop; the advance is at
least four, so a fuel of one more than the input length suffices. -/
def warcRecordsPlainGo (name : String) (s : List Char) : Nat → Nat → Option (List IndexRecord)
  | 0, _ => some []
  | fuel + 1, pos =>
    if s.length ≤ pos then some []
    else
      match parseRecordAt name pos (s.drop pos) with
      | .stop => some []
      | .panicR => none
      | .record r adv => (warcRecordsPlainGo name s fuel (pos + adv)).map (fun t => r :: t)

/-- Record sequence produced by the WarcReader iterator over a plain
WARC file. A none result models a panic inside the iterator. -/
def warcRecordsPlain (name : String) (s : List Char) : Option (List IndexRecord) :=
  warcRecordsPlainGo name s (s.length + 1) 0

/-- Instrumented plain mode driver pairing every record with the
cursor advance that produced it; used only to state offset and
length properties. -/
def warcRecordsPlainAnnGo (name : String) (s : List Char) :
    Nat → Nat → Option (List (IndexRecord × Nat))
  | 0, _ => some []
  | fuel + 1, pos =>
    if s.length ≤ pos then some []
    else
      match parseRecordAt name pos (s.drop pos) with
      | .stop => some []
      | .panicR => none
      | .record r adv =>
        (warcRecordsPlainAnnGo name s fuel (pos + adv)).map (fun t => (r, adv) :: t)

/-- One gzip member of the input file: its size in the compressed
file and its decompressed content. The gzip decoding itself is done
by an external library in the source; frames model its output. -/
structure Frame where
  rawLen : Nat
  decoded : List Char
deriving DecidableEq, Repr

/-- Gzip mode driver of the WarcReader iterator: each member is
decoded in full, the file offset advances by the member size in the
compressed file, and the record offset is the member start. -/
def warcRecordsGzipGo (name : String) : Nat → List Frame → Option (List IndexRecord)
  | _, [] => some []
  | offset, f :: fs =>
    match parseRecordAt name offset f.decoded with
    | .stop => some []
    | .panicR => none
    | .record r _ => (warcRecordsGzipGo name (offset + f.rawLen) fs).map (fun t => r :: t)

/-- Record sequence produced by the WarcReader iterator over a
gzipped WARC file presented as its member frames. -/
def warcRecordsGzip (name : String) (frames : List Frame) : Option (List IndexRecord) :=
  warcRecordsGzipGo name 0 frames

/-- Model of the indexer function of src/indexer.rs: the parsed
records that pass the retention test, in file order. -/
def indexer_plain (name : String) (s : List Char) : Option (List IndexRecord) :=
  (warcRecordsPlain name s).map (List.filter retainB)

/-- Gzip mode counterpart of the indexer function. -/
def indexer_gzip (name : String) (frames : List Frame) : Option (List IndexRecord) :=
  (warcRecordsGzip name frames).map (List.filter retainB)

/-- Offsets obtained by accumulating a list of member sizes from a
starting offset; used to state the gzip offset invariant. -/
def offsetsFrom (offset : Nat) : List Nat → List Nat
  | [] => []
  | n :: ns => offset :: offsetsFrom (offset + n) ns

/-- Outcome of the create_surt function of src/indexer.rs: a key, the
None return reserved for urn URLs, or a panic from one of the two
unwrap calls. -/
inductive SurtOutcome
  | ok (s : String)
  | noneOut
  | panic
deriving DecidableEq, Repr

/-- Inner part of create_surt after the scheme prefix is removed:
split at the first slash, split the host at dots, reverse, join with
commas and append the separator and the rest. A missing slash panics
in the source. -/
def surtBody (rest : List Char) : SurtOutcome :=
  match splitOnceList '/' rest with
  | none => .panic
  | some (host, path) =>
    .ok (String.mk (joinComma (splitChar '.' host).reverse ++ ')' :: '/' :: path))

/-- Model of create_surt from src/indexer.rs. The https arm strips
eight characters and the http arm seven; a URL shorter than the
stripped prefix, or one that matches no arm, panics through the
unwrap on the option. -/
def create_surt (url : String) : SurtOutcome :=
  let u := url.toList
  if isPrefixL ("https".toList) u then
    if 8 ≤ u.length then surtBody (u.drop 8) else .panic
  else if isPrefixL ("http".toList) u then
    if 7 ≤ u.length then surtBody (u.drop 7) else .panic
  else if isPrefixL ("urn".toList) u then .noneOut
  else .panic

/-- Precondition under which create_surt returns a key: the URL
starts with http or https and the text after the stripped prefix
contains a slash. -/
def surtPrecond (url : String) : Bool :=
  let u := url.toList
  if isPrefixL ("https".toList) u then decide (8 ≤ u.length) && hasChar '/' (u.drop 8)
  else if isPrefixL ("http".toList) u then decide (7 ≤ u.length) && hasChar '/' (u.drop 7)
  else false

/-- Lowercase test: every character is fixed by ASCII lowercasing. -/
def isLowerStr (s : String) : Bool :=
  s.toList.all (fun c => toLowerAscii c = c)

/-- Parsed form of an RFC 3339 timestamp: calendar fields and a fixed
offset, the model of the chrono DateTime with a FixedOffset zone. -/
structure Rfc3339Time where
  year : Nat
  month : Nat
  day : Nat
  hour : Nat
  minute : Nat
  second : Nat
  offNeg : Bool
  offH : Nat
  offM : Nat
deriving DecidableEq, Repr

/-- Numeric value of two digit characters. -/
def twoDigits (a b : Char) : Nat :=
  (a.toNat - 48) * 10 + (b.toNat - 48)

/-- Model of the chrono parse_from_rfc3339 call for timestamps of the
shape used by WARC files: date, the letter T, time, then Z or a
signed hour and minute offset, without fractional seconds. Field
ranges are checked; none models the Err case, whose unwrap panics. -/
def parseRfc3339 (s : String) : Option Rfc3339Time :=
  match s.toList with
  | y1 :: y2 :: y3 :: y4 :: '-' :: m1 :: m2 :: '-' :: d1 :: d2 :: 'T' ::
      h1 :: h2 :: ':' :: mi1 :: mi2 :: ':' :: s1 :: s2 :: rest =>
    if ([y1, y2, y3, y4, m1, m2, d1, d2, h1, h2, mi1, mi2, s1, s2].all isDigitC) then
      let t : Rfc3339Time :=
        { year := twoDigits y1 y2 * 100 + twoDigits y3 y4
          month := twoDigits m1 m2
          day := twoDigits d1 d2
          hour := twoDigits h1 h2
          minute := twoDigits mi1 mi2
          second := twoDigits s1 s2
          offNeg := false
          offH := 0
          offM := 0 }
      if 1 ≤ t.month ∧ t.month ≤ 12 ∧ 1 ≤ t.day ∧ t.day ≤ 31 ∧
          t.hour ≤ 23 ∧ t.minute ≤ 59 ∧ t.second ≤ 59 then
        match rest with
        | ['Z'] => some t
        | [sign, o1, o2, ':', o3, o4] =>
          if (sign = '+' || sign = '-') && ([o1, o2, o3, o4].all isDigitC) then
            if twoDigits o1 o2 ≤ 23 ∧ twoDigits o3 o4 ≤ 59 then
              some { t with offNeg := sign = '-', offH := twoDigits o1 o2, offM := twoDigits o3 o4 }
            else none
          else none
        | _ => none
      else none
    else none
  | _ => none

/-- Two digit zero padded decimal rendering. -/
def pad2 (n : Nat) : String :=
  if n < 10 then "0" ++ toString n else toString n

/-- Four digit zero padded decimal rendering. -/
def pad4 (n : Nat) : String :=
  if n < 10 then "000" ++ toString n
  else if n < 100 then "00" ++ toString n
  else if n < 1000 then "0" ++ toString n
  else toString n

/-- Model of the chrono Display implementation for a DateTime with a
FixedOffset: the naive local date and time separated by a space,
then a space and the signed offset. This is the rendering the source
interpolates into the CDXJ line. -/
def chronoDisplay (t : Rfc3339Time) : String :=
  pad4 t.year ++ "-" ++ pad2 t.month ++ "-" ++ pad2 t.day ++ " " ++
    pad2 t.hour ++ ":" ++ pad2 t.minute ++ ":" ++ pad2 t.second ++ " " ++
    (if t.offNeg then "-" else "+") ++ pad2 t.offH ++ ":" ++ pad2 t.offM

/-- Fourteen digit timestamp test: the shape the specification
requires for the second CDXJ field. -/
def isTimestamp14 (s : String) : Bool :=
  s.toList.length == 14 && s.toList.all isDigitC

/-- One line of the CDXJ index as built in the loop body of
to_cdxj_string: the surt key, the chrono Display rendering of the
parsed timestamp, and the JSON object whose length field carries the
WARC content length. None models the panics of the two unwrap calls,
including the unwrap of the None returned by create_surt for urn
URLs. -/
def cdxjLine (r : IndexRecord) : Option String :=
  match create_surt r.url with
  | .panic => none
  | .noneOut => none
  | .ok surt =>
    match parseRfc3339 r.timestamp with
    | none => none
    | some ts =>
      some (surt ++ " " ++ chronoDisplay ts ++
        " \x7b\"url\":\"" ++ r.url ++
        "\",\"digest\":\"" ++ r.digest ++
        "\",\"mime\":\"" ++ r.mime_type ++
        "\",\"offset\":" ++ toString r.offset ++
        ",\"length\":" ++ toString r.content_length ++
        ",\"status\":" ++ toString r.http_status_code ++
        ",\"filename\":\"" ++ r.file_name ++ "\"\x7d\n")

/-- Concatenation of the per record CDXJ lines. -/
def cdxjConcat : List IndexRecord → Option String
  | [] => some ""
  | r :: rest =>
    match cdxjLine r with
    | none => none
    | some l => (cdxjConcat rest).map (fun t => l ++ t)

/-- Model of to_cdxj_string from src/indexer.rs, trailing whitespace
trimmed as in the source. None models a panic on some record. -/
def to_cdxj_string (index : List IndexRecord) : Option String :=
  (cdxjConcat index).map (fun s => String.mk (trimEndL s.toList))

/-- Space separated fields of a line; used to state where the
timestamp lands in a CDXJ line. -/
def secondField (l : String) : Option String :=
  ((splitChar ' ' l.toList).map String.mk).get? 1

/-- Value of the length key inside a CDXJ JSON object: the digits
between the length key and the following comma. -/
def lengthField (line : String) : Option Nat :=
  match splitFirstSeq ("\"length\":".toList) line.toList with
  | none => none
  | some (_, post) =>
    match splitOnceList ',' post with
    | some (a, _) => rustParseUsizeL a
    | none => rustParseUsizeL post

/-- Plain WARC file with one HTTP response record for the URL
http://archive.org/ with mime text/html and status 200. -/
def sC3 : String :=
  "WARC/1.1\r\nWARC-Type: response\r\nWARC-Date: 2025-08-06T13:37:28Z\r\nWARC-Target-URI: http://archive.org/\r\nContent-Type: application/http; msgtype=response\r\nContent-Length: 44\r\n\r\nHTTP/1.1 200 OK\r\nContent-Type: text/html\r\n\r\n\r\n\r\n"

/-- The single record the plain mode iterator produces from sC3. -/
def recC3 : IndexRecord :=
  ((warcRecordsPlain "example.warc" sC3.toList).getD []).headD default

/-- Plain WARC file equal to sC3 except that the target URI is a urn,
which the indexer filter does not examine. -/
def sC7 : String :=
  "WARC/1.1\r\nWARC-Type: response\r\nWARC-Date: 2025-08-06T13:37:28Z\r\nWARC-Target-URI: urn:pageinfo:archive.org\r\nContent-Type: application/http; msgtype=response\r\nContent-Length: 44\r\n\r\nHTTP/1.1 200 OK\r\nContent-Type: text/html\r\n\r\n\r\n\r\n"

/-- The single record the plain mode iterator produces from sC7. -/
def recC7 : IndexRecord :=
  ((warcRecordsPlain "example.warc" sC7.toList).getD []).headD default

/-- Plain WARC file equal to sC3 except that the embedded response
carries mime text/plain. -/
def sC4 : String :=
  "WARC/1.1\r\nWARC-Type: response\r\nWARC-Date: 2025-08-06T13:37:28Z\r\nWARC-Target-URI: http://archive.org/\r\nContent-Type: application/http; msgtype=response\r\nContent-Length: 45\r\n\r\nHTTP/1.1 200 OK\r\nContent-Type: text/plain\r\n\r\n\r\n\r\n"

/-- The single record the plain mode iterator produces from sC4. -/
def recC4 : IndexRecord :=
  ((warcRecordsPlain "example.warc" sC4.toList).getD []).headD default

/-- Plain WARC file holding two copies of the sC3 record. -/
def sC5 : String := sC3 ++ sC3

/-- Retained record with a timestamp carrying a one hour offset, used
to evaluate the CDXJ timestamp rendering. -/
def recC1 : IndexRecord :=
  { offset := 0
    content_length := 120
    header_length := 180
    digest := "sha1:EXAMPLEDIGEST"
    timestamp := "2025-08-06T14:37:28+01:00"
    record_type := some .Response
    url := "http://archive.org/"
    is_page := true
    is_http := true
    http_status_code := 200
    mime_type := "text/html"
    file_name := "example.warc" }

/-- Retained looking record whose URL is a urn, reaching the unwrap
of the create_surt result inside to_cdxj_string. -/
def recC9 : IndexRecord :=
  { recC1 with url := "urn:pageinfo:archive.org" }

/-- Splitting one line off reassembles to the input. -/
lemma readLineChars_append : ∀ l : List Char, (readLineChars l).1 ++ (readLineChars l).2 = l := by
  intro l
  induction l with
  | nil => simp [readLineChars]
  | cons c rest ih =>
    by_cases h : c = '\n'
    · simp [readLineChars, h]
    · simp [readLineChars, h, ih]

/-- A line read from a non-empty input is non-empty. -/
lemma readLineChars_fst_ne_nil : ∀ l : List Char, l ≠ [] → (readLineChars l).1 ≠ [] := by
  intro l hl
  cases l with
  | nil => exact absurd rfl hl
  | cons c rest =>
    by_cases h : c = '\n'
    · simp [readLineChars, h]
    · simp [readLineChars, h]

/-- The rest after one line is shorter than a non-empty input. -/
lemma readLineChars_snd_lt : ∀ l : List Char, l ≠ [] → (readLineChars l).2.length < l.length := by
  intro l hl
  have happ := readLineChars_append l
  have hne := readLineChars_fst_ne_nil l hl
  have : (readLineChars l).1.length + (readLineChars l).2.length = l.length := by
    rw [← List.length_append, happ]
  have hpos : 0 < (readLineChars l).1.length := List.length_pos.mpr hne
  omega

/-- The line decomposition starts with the first read line. -/
lemma linesOf_cons_eq : ∀ l : List Char, l ≠ [] →
    linesOf l = (readLineChars l).1 :: linesOf (readLineChars l).2 := by
  intro l
  induction l with
  | nil => intro h; exact absurd rfl h
  | cons c rest ih =>
    intro _
    by_cases h : c = '\n'
    · subst h
      simp [readLineChars, linesOf]
    · by_cases hr : rest = []
      · subst hr
        simp [readLineChars, linesOf, h]
      · have ihr := ih hr
        have hne := readLineChars_fst_ne_nil rest hr
        simp only [readLineChars, if_neg h]
        have : linesOf (c :: rest) = (c :: (readLineChars rest).1) :: linesOf (readLineChars rest).2 := by
          simp only [linesOf] at ihr ⊢
          rw [List.foldr_cons, ihr, if_neg h]
        simpa using this

/-- The read_header_block loop computes the specification-side block:
the concatenated lines up to and including the first line that is
exactly carriage return and newline. -/
lemma readHeaderGo_spec : ∀ fuel : Nat, ∀ input acc : List Char, input.length < fuel →
    (readHeaderGo fuel input acc).map Prod.fst =
      (headerBlockSpec (linesOf input)).map (fun b => acc ++ b) := by
  intro fuel
  induction fuel with
  | zero => intro input acc h; omega
  | succ n ih =>
    intro input acc h
    by_cases hinput : input = []
    · subst hinput
      simp [readHeaderGo, readLineChars, linesOf, headerBlockSpec]
    · have hfst := readLineChars_fst_ne_nil input hinput
      have hlen : (readLineChars input).1.length ≠ 0 := by
        simpa [List.length_eq_zero] using hfst
      have hlines := linesOf_cons_eq input hinput
      by_cases hcrlf : (readLineChars input).1 = ['\r', '\n']
      · simp [readHeaderGo, hlen, hcrlf, hlines, headerBlockSpec]
      · have hrest : (readLineChars input).2.length < n :=
          Nat.lt_of_lt_of_le (readLineChars_snd_lt input hinput) (Nat.lt_succ_iff.mp h)
        have ihr := ih (readLineChars input).2 (acc ++ (readLineChars input).1) hrest
        simp only [readHeaderGo, if_neg hlen, if_neg hcrlf]
        rw [ihr, hlines]
        simp only [headerBlockSpec, if_neg hcrlf, Option.map_map]
        apply Option.map_congr
        intro b _
        simp [List.append_assoc]

/-- The WARC field loop never touches the offset, the header length,
the file name, the page flag, the mime type or the status code. -/
lemma processFields_warc_preserves :
    ∀ (ls : List (List Char)) (r r' : IndexRecord),
    processFields .warc r ls = some r' →
    r'.offset = r.offset ∧ r'.header_length = r.header_length ∧
      r'.file_name = r.file_name ∧ r'.is_page = r.is_page ∧
      r'.mime_type = r.mime_type ∧ r'.http_status_code = r.http_status_code := by
  intro ls
  induction ls with
  | nil =>
    intro r r' h
    simp only [processFields] at h
    cases h
    exact ⟨rfl, rfl, rfl, rfl, rfl, rfl⟩
  | cons line rest ih =>
    intro r r' h
    simp only [processFields] at h
    repeat' split at h
    any_goals cases h
    all_goals
      obtain ⟨a, b, c, d, e, f⟩ := ih _ _ h
      exact ⟨a.trans (by first | rfl | (split <;> rfl)),
        b.trans (by first | rfl | (split <;> rfl)),
        c.trans (by first | rfl | (split <;> rfl)),
        d.trans (by first | rfl | (split <;> rfl)),
        e.trans (by first | rfl | (split <;> rfl)),
        f.trans (by first | rfl | (split <;> rfl))⟩

/-- The HTTP field loop only ever assigns the mime type. -/
lemma processFields_http_preserves :
    ∀ (ls : List (List Char)) (r r' : IndexRecord),
    processFields .http r ls = some r' →
    r'.offset = r.offset ∧ r'.header_length = r.header_length ∧
      r'.file_name = r.file_name ∧ r'.is_page = r.is_page ∧
      r'.content_length = r.content_length ∧ r'.http_status_code = r.http_status_code := by
  intro ls
  induction ls with
  | nil =>
    intro r r' h
    simp only [processFields] at h
    cases h
    exact ⟨rfl, rfl, rfl, rfl, rfl, rfl⟩
  | cons line rest ih =>
    intro r r' h
    simp only [processFields] at h
    repeat' split at h
    any_goals cases h
    all_goals
      obtain ⟨a, b, c, d, e, f⟩ := ih _ _ h
      exact ⟨a, b, c, d, e, f⟩

/-- The final page flag step keeps every other field. -/
lemma setIsPage_preserves (r : IndexRecord) :
    (setIsPage r).offset = r.offset ∧ (setIsPage r).header_length = r.header_length ∧
      (setIsPage r).file_name = r.file_name ∧ (setIsPage r).mime_type = r.mime_type ∧
      (setIsPage r).http_status_code = r.http_status_code ∧
      (setIsPage r).content_length = r.content_length := by
  unfold setIsPage
  split <;> exact ⟨rfl, rfl, rfl, rfl, rfl, rfl⟩

/-- The final page flag step turns the flag on exactly when the flag
was already on or the mime and status condition holds. -/
lemma setIsPage_is_page (r : IndexRecord) :
    (setIsPage r).is_page =
      (r.is_page || decide (r.mime_type = "text/html" ∧
        200 ≤ r.http_status_code ∧ r.http_status_code < 299)) := by
  unfold setIsPage
  split
  · next hc => simp [decide_eq_true hc]
  · next hc => simp [decide_eq_false hc]

/-- A list is at least as long as any of its leading segments. -/
lemma isPrefixL_length_le : ∀ p l : List Char, isPrefixL p l = true → p.length ≤ l.length := by
  intro p
  induction p with
  | nil => intro l _; simp
  | cons a as ih =>
    intro l h
    cases l with
    | nil => simp [isPrefixL] at h
    | cons b bs =>
      simp only [isPrefixL] at h
      split at h
      · have := ih bs h
        simp only [List.length_cons]
        omega
      · cases h

/-- Taking the length of a leading segment recovers it. -/
lemma isPrefixL_take : ∀ p l : List Char, isPrefixL p l = true → l.take p.length = p := by
  intro p
  induction p with
  | nil => intro l _; simp
  | cons a as ih =>
    intro l h
    cases l with
    | nil => simp [isPrefixL] at h
    | cons b bs =>
      simp only [isPrefixL] at h
      split at h
      · next hab => simp [List.take_cons, ih bs h, hab.symm]
      · cases h

/-- On a block carrying the WARC/1.1 magic, process_headers takes the
WARC branch. -/
lemma process_headers_warc_branch (r : IndexRecord) (block : List Char)
    (h8 : isPrefixL ("WARC/1.1".toList) block = true) :
    process_headers r block =
      (processFields .warc r ((linesRust (trimL block)).drop 1)).map setIsPage := by
  have hlen : 8 ≤ block.length := isPrefixL_length_le _ _ h8
  have htake8 : block.take 8 = "WARC/1.1".toList := isPrefixL_take _ _ h8
  have htake4 : block.take 4 = "WARC".toList := by
    have : block.take 4 = (block.take 8).take 4 := by
      rw [List.take_take]
      norm_num
    rw [this, htake8]
    rfl
  unfold process_headers
  rw [if_neg (by omega), if_pos htake4]

/-- Process_headers never touches the offset, the header length or
the file name. -/
lemma process_headers_preserves (r : IndexRecord) (buffer : List Char) (r' : IndexRecord)
    (h : process_headers r buffer = some r') :
    r'.offset = r.offset ∧ r'.header_length = r.header_length ∧ r'.file_name = r.file_name := by
  unfold process_headers at h
  repeat' split at h
  any_goals cases h
  · obtain ⟨r0, h0, hset⟩ := Option.map_eq_some'.mp h
    obtain ⟨a, b, c, _, _, _⟩ := processFields_warc_preserves _ _ _ h0
    obtain ⟨pa, pb, pc, _, _, _⟩ := setIsPage_preserves r0
    subst hset
    exact ⟨pa.trans a, pb.trans b, pc.trans c⟩
  · obtain ⟨r0, h0, hset⟩ := Option.map_eq_some'.mp h
    obtain ⟨a, b, c, _, _, _⟩ := processFields_http_preserves _ _ _ h0
    obtain ⟨pa, pb, pc, _, _, _⟩ := setIsPage_preserves r0
    subst hset
    exact ⟨pa.trans a, pb.trans b, pc.trans c⟩

/-- Process_headers on a WARC magic block keeps the mime type and the
status code unchanged. -/
lemma process_headers_warc_keeps (r : IndexRecord) (block : List Char) (r' : IndexRecord)
    (h8 : isPrefixL ("WARC/1.1".toList) block = true)
    (h : process_headers r block = some r') :
    r'.mime_type = r.mime_type ∧ r'.http_status_code = r.http_status_code := by
  rw [process_headers_warc_branch r block h8] at h
  obtain ⟨r0, h0, hset⟩ := Option.map_eq_some'.mp h
  obtain ⟨_, _, _, _, e, f⟩ := processFields_warc_preserves _ _ _ h0
  obtain ⟨_, _, _, pd, pe, _⟩ := setIsPage_preserves r0
  subst hset
  exact ⟨pd.trans e, pe.trans f⟩

/-- The page flag after process_headers is the incoming flag joined
with the mime and status condition on the resulting record. -/
lemma process_headers_is_page (r : IndexRecord) (buffer : List Char) (r' : IndexRecord)
    (h : process_headers r buffer = some r') :
    r'.is_page = (r.is_page || decide (r'.mime_type = "text/html" ∧
      200 ≤ r'.http_status_code ∧ r'.http_status_code < 299)) := by
  unfold process_headers at h
  repeat' split at h
  any_goals cases h
  · obtain ⟨r0, h0, hset⟩ := Option.map_eq_some'.mp h
    obtain ⟨_, _, _, d, _, _⟩ := processFields_warc_preserves _ _ _ h0
    obtain ⟨_, _, _, pm, ps, _⟩ := setIsPage_preserves r0
    subst hset
    rw [setIsPage_is_page, d, pm, ps]
  · obtain ⟨r0, h0, hset⟩ := Option.map_eq_some'.mp h
    obtain ⟨_, _, _, d, _, _⟩ := processFields_http_preserves _ _ _ h0
    obtain ⟨_, _, _, pm, ps, _⟩ := setIsPage_preserves r0
    subst hset
    rw [setIsPage_is_page, d, pm, ps]

/-- Anatomy of an emitted record: its offset is the cursor position,
its page flag agrees with the mime and status condition, and the
cursor advance is the WARC header block length plus the parsed
content length plus four. -/
lemma parseRecordAt_spec (name : String) (off : Nat) (content : List Char)
    (r : IndexRecord) (adv : Nat)
    (h : parseRecordAt name off content = .record r adv) :
    r.offset = off ∧
    r.is_page = decide (r.mime_type = "text/html" ∧
      200 ≤ r.http_status_code ∧ r.http_status_code < 299) ∧
    ∃ block rest r1,
      read_header_block content = some (block, rest) ∧
      isPrefixL ("WARC/1.1".toList) block = true ∧
      process_headers { initRecord name off with header_length := block.length } block = some r1 ∧
      r1.header_length = block.length ∧
      adv = block.length + r1.content_length + 4 := by
  unfold parseRecordAt at h
  cases hrb : read_header_block content with
  | none => rw [hrb] at h; cases h
  | some p =>
    obtain ⟨block, rest⟩ := p
    rw [hrb] at h
    dsimp only at h
    by_cases hpre : isPrefixL ("WARC/1.1".toList) block = true
    · rw [if_pos hpre] at h
      cases hph : process_headers { initRecord name off with header_length := block.length } block with
      | none => rw [hph] at h; cases h
      | some r1 =>
        rw [hph] at h
        dsimp only at h
        obtain ⟨a1, b1, c1⟩ := process_headers_preserves _ _ _ hph
        have hb1 : r1.header_length = block.length := b1
        have ha1 : r1.offset = off := a1
        have hpage1 := process_headers_is_page _ _ _ hph
        have hkeep1 := process_headers_warc_keeps _ _ _ hpre hph
        have hmime1 : r1.mime_type = "" := hkeep1.1
        have hpage1' : r1.is_page = false := by
          rw [hpage1]
          have : ¬(r1.mime_type = "text/html" ∧
              200 ≤ r1.http_status_code ∧ r1.http_status_code < 299) := by
            intro hc
            rw [hmime1] at hc
            exact absurd hc.1 (by decide)
          simp [decide_eq_false this, initRecord]
        split at h
        · -- record with an embedded HTTP message
          cases hrb2 : read_header_block rest with
          | none => rw [hrb2] at h; cases h
          | some p2 =>
            obtain ⟨hblock, rest2⟩ := p2
            rw [hrb2] at h
            dsimp only at h
            cases hph2 : process_headers r1 hblock with
            | none => rw [hph2] at h; cases h
            | some r2 =>
              rw [hph2] at h
              dsimp only at h
              obtain ⟨h1, h2⟩ := FrameResult.record.inj h
              subst h1
              subst h2
              obtain ⟨a2, _, _⟩ := process_headers_preserves _ _ _ hph2
              have hpage2 := process_headers_is_page _ _ _ hph2
              rw [hpage1'] at hpage2
              refine ⟨a2.trans ha1, by simpa using hpage2,
                block, rest, r1, rfl, hpre, hph, hb1, by rw [hb1]⟩
        · obtain ⟨h1, h2⟩ := FrameResult.record.inj h
          subst h1
          subst h2
          have hcond : decide (r1.mime_type = "text/html" ∧
              200 ≤ r1.http_status_code ∧ r1.http_status_code < 299) = false := by
            apply decide_eq_false
            intro hc
            rw [hmime1] at hc
            exact absurd hc.1 (by decide)
          exact ⟨ha1, by rw [hcond]; exact hpage1',
            block, rest, r1, rfl, hpre, hph, hb1, by rw [hb1]⟩
    · rw [if_neg hpre] at h
      cases h

/-- The first record an instrumented plain run emits sits at the
cursor position the run started from. -/
lemma annGo_head_offset (name : String) (s : List Char) (fuel pos : Nat)
    (ps : List (IndexRecord × Nat))
    (h : warcRecordsPlainAnnGo name s fuel pos = some ps) :
    ∀ p, ps.head? = some p → p.1.offset = pos := by
  cases fuel with
  | zero =>
    simp only [warcRecordsPlainAnnGo] at h
    cases h
    intro p hp
    cases hp
  | succ n =>
    simp only [warcRecordsPlainAnnGo] at h
    split at h
    · cases h
      intro p hp
      cases hp
    · split at h
      · cases h
        intro p hp
        cases hp
      · cases h
      · next r adv heq =>
        obtain ⟨t, _, rfl⟩ := Option.map_eq_some'.mp h
        intro p hp
        cases hp
        exact (parseRecordAt_spec _ _ _ _ _ heq).1

/-- Along an instrumented plain run, each next offset is the previous
offset plus the previous advance. -/
lemma annGo_chain (name : String) (s : List Char) :
    ∀ fuel pos ps, warcRecordsPlainAnnGo name s fuel pos = some ps →
    List.Chain' (fun a b => b.1.offset = a.1.offset + a.2) ps := by
  intro fuel
  induction fuel with
  | zero =>
    intro pos ps h
    simp only [warcRecordsPlainAnnGo] at h
    cases h
    exact List.chain'_nil
  | succ n ih =>
    intro pos ps h
    simp only [warcRecordsPlainAnnGo] at h
    split at h
    · cases h; exact List.chain'_nil
    · split at h
      · cases h; exact List.chain'_nil
      · cases h
      · next r adv heq =>
        obtain ⟨t, ht, rfl⟩ := Option.map_eq_some'.mp h
        refine List.chain'_cons'.mpr ⟨?_, ih _ _ ht⟩
        intro y hy
        have hoff := annGo_head_offset name s n (pos + adv) t ht y hy
        have hr := (parseRecordAt_spec _ _ _ _ _ heq).1
        rw [hoff, hr]

/-- Dropping the instrumentation recovers the plain run. -/
lemma annGo_fst (name : String) (s : List Char) :
    ∀ fuel pos, (warcRecordsPlainAnnGo name s fuel pos).map (List.map Prod.fst) =
      warcRecordsPlainGo name s fuel pos := by
  intro fuel
  induction fuel with
  | zero => intro pos; rfl
  | succ n ih =>
    intro pos
    simp only [warcRecordsPlainAnnGo, warcRecordsPlainGo]
    split
    · rfl
    · split
      · rfl
      · rfl
      · next r adv _ =>
        rw [← ih (pos + adv)]
        cases warcRecordsPlainAnnGo name s n (pos + adv) with
        | none => rfl
        | some t => rfl

/-- A chain of exact offset steps yields the pairwise offset bound. -/
lemma chainExt_pairwise :
    ∀ ps : List (IndexRecord × Nat),
    List.Chain' (fun a b => b.1.offset = a.1.offset + a.2) ps →
    List.Pairwise (fun a b => a.1.offset + a.2 ≤ b.1.offset) ps := by
  intro ps
  induction ps with
  | nil => intro _; exact List.Pairwise.nil
  | cons a t ih =>
    intro h
    obtain ⟨hhead, htail⟩ := List.chain'_cons'.mp h
    have hpt := ih htail
    refine List.pairwise_cons.mpr ⟨?_, hpt⟩
    intro b hb
    cases t with
    | nil => cases hb
    | cons y t2 =>
      have hy : y.1.offset = a.1.offset + a.2 := hhead y rfl
      rcases List.mem_cons.mp hb with hby | hbt
      · rw [hby, hy]
      · have := (List.pairwise_cons.mp hpt).1 b hbt
        omega

/-- The gzip run stamps offsets that are the partial sums of the
member sizes it has passed. -/
lemma gzipGo_offsets (name : String) :
    ∀ frames off rs, warcRecordsGzipGo name off frames = some rs →
    rs.map IndexRecord.offset =
      offsetsFrom off ((frames.map Frame.rawLen).take rs.length) := by
  intro frames
  induction frames with
  | nil =>
    intro off rs h
    simp only [warcRecordsGzipGo] at h
    cases h
    rfl
  | cons f fs ih =>
    intro off rs h
    simp only [warcRecordsGzipGo] at h
    split at h
    · cases h; rfl
    · cases h
    · next r heq =>
      obtain ⟨t, ht, rfl⟩ := Option.map_eq_some'.mp h
      have hr := (parseRecordAt_spec _ _ _ _ _ heq).1
      simp only [List.map_cons, List.length_cons, List.take_succ_cons, offsetsFrom, hr]
      rw [ih _ _ ht]

/-- Every record of a plain run comes out of parseRecordAt at some
cursor position. -/
lemma plainGo_mem (name : String) (s : List Char) :
    ∀ fuel pos rs r, warcRecordsPlainGo name s fuel pos = some rs → r ∈ rs →
    ∃ p adv, parseRecordAt name p (s.drop p) = .record r adv := by
  intro fuel
  induction fuel with
  | zero =>
    intro pos rs r h hr
    simp only [warcRecordsPlainGo] at h
    cases h
    cases hr
  | succ n ih =>
    intro pos rs r h hr
    simp only [warcRecordsPlainGo] at h
    split at h
    · cases h; cases hr
    · split at h
      · cases h; cases hr
      · cases h
      · next r0 adv heq =>
        obtain ⟨t, ht, rfl⟩ := Option.map_eq_some'.mp h
        rcases List.mem_cons.mp hr with hre | hrt
        · exact ⟨pos, adv, by rw [← hre] at heq; exact heq⟩
        · exact ih _ _ _ ht hrt

/-- Every record of a gzip run comes out of parseRecordAt on some
frame content. -/
lemma gzipGo_mem (name : String) :
    ∀ frames off rs r, warcRecordsGzipGo name off frames = some rs → r ∈ rs →
    ∃ o c adv, parseRecordAt name o c = .record r adv := by
  intro frames
  induction frames with
  | nil =>
    intro off rs r h hr
    simp only [warcRecordsGzipGo] at h
    cases h
    cases hr
  | cons f fs ih =>
    intro off rs r h hr
    simp only [warcRecordsGzipGo] at h
    split at h
    · cases h; cases hr
    · cases h
    · next r0 heq =>
      obtain ⟨t, ht, rfl⟩ := Option.map_eq_some'.mp h
      rcases List.mem_cons.mp hr with hre | hrt
      · exact ⟨off, f.decoded, _, by rw [← hre] at heq; exact heq⟩
      · exact ih _ _ _ ht hrt

/-- Claim C1: the claim says the per-record CDXJ line renders the
timestamp as the fourteen digit YYYYMMDDhhmmss form of the WARC-Date
in UTC, placed as the second space separated field. The code parses
the timestamp, computes such a rendering and discards it, then
interpolates the chrono Display form, which contains spaces and
hyphens; on a record dated 2025-08-06T14:37:28+01:00 the second
field of the line is the bare date, not a fourteen digit string. -/
theorem c1_timestamp_not_14digit :
    (to_cdxj_string [recC1]).bind secondField = some "2025-08-06" ∧
    isTimestamp14 "2025-08-06" = false := by
  decide

/-- Claim C2: a parsed record appears in the list returned by the
indexer exactly when its record type is present, its mime type is
non-empty and its status code is not zero, and records failing the
test are dropped without turning the run into an error; this holds
in both the plain and the gzip mode. -/
theorem c2_filter :
    (∀ name s rs, warcRecordsPlain name s = some rs →
      indexer_plain name s = some (rs.filter retainB) ∧
      ∀ r, r ∈ rs.filter retainB ↔ (r ∈ rs ∧ retainB r = true)) ∧
    (∀ name frames rs, warcRecordsGzip name frames = some rs →
      indexer_gzip name frames = some (rs.filter retainB) ∧
      ∀ r, r ∈ rs.filter retainB ↔ (r ∈ rs ∧ retainB r = true)) := by
  constructor
  · intro name s rs h
    refine ⟨by unfold indexer_plain; rw [h]; rfl, fun r => List.mem_filter⟩
  · intro name frames rs h
    refine ⟨by unfold indexer_gzip; rw [h]; rfl, fun r => List.mem_filter⟩

/-- Witness for claim C2 on a concrete single record file. -/
theorem c2_filter_witness :
    warcRecordsPlain "example.warc" sC3.toList = some [recC3] ∧
    indexer_plain "example.warc" sC3.toList = some ([recC3].filter retainB) :=
  ⟨by decide, (c2_filter.1 "example.warc" sC3.toList [recC3] (by decide)).1⟩

/-- Claim C4 counterexample: the claim says the page flag is true
exactly when the mime type is text/html, application/xhtml+xml or
text/plain and the status lies between 200 and 299 inclusive. On a
parsed record with mime text/plain and status 200 the code leaves
the flag false, so the claimed equivalence fails. -/
theorem c4_counterexample :
    warcRecordsPlain "example.warc" sC4.toList = some [recC4] ∧
    recC4.mime_type = "text/plain" ∧
    recC4.http_status_code = 200 ∧
    recC4.is_page = false ∧
    ¬(recC4.is_page = true ↔
      ((recC4.mime_type = "text/html" ∨ recC4.mime_type = "application/xhtml+xml" ∨
        recC4.mime_type = "text/plain") ∧
        200 ≤ recC4.http_status_code ∧ recC4.http_status_code ≤ 299)) := by
  decide

/-- Claim C4 amended: for every parsed record, the page flag is true
exactly when the mime type is text/html and the status code lies in
the half open range from 200 to 299, in both modes. -/
theorem c4_amended :
    (∀ name s rs r, warcRecordsPlain name s = some rs → r ∈ rs →
      (r.is_page = true ↔ (r.mime_type = "text/html" ∧
        200 ≤ r.http_status_code ∧ r.http_status_code < 299))) ∧
    (∀ name frames rs r, warcRecordsGzip name frames = some rs → r ∈ rs →
      (r.is_page = true ↔ (r.mime_type = "text/html" ∧
        200 ≤ r.http_status_code ∧ r.http_status_code < 299))) := by
  constructor
  · intro name s rs r h hr
    obtain ⟨p, adv, hstep⟩ := plainGo_mem name s _ _ _ r h hr
    have hpage := (parseRecordAt_spec _ _ _ _ _ hstep).2.1
    rw [hpage]
    exact ⟨fun hd => of_decide_eq_true hd, fun hp => decide_eq_true hp⟩
  · intro name frames rs r h hr
    obtain ⟨o, c, adv, hstep⟩ := gzipGo_mem name _ _ _ r h hr
    have hpage := (parseRecordAt_spec _ _ _ _ _ hstep).2.1
    rw [hpage]
    exact ⟨fun hd => of_decide_eq_true hd, fun hp => decide_eq_true hp⟩

/-- Witness for the amended claim C4 on a concrete record. -/
theorem c4_amended_witness :
    warcRecordsPlain "example.warc" sC3.toList = some [recC3] ∧
    (recC3.is_page = true ↔ (recC3.mime_type = "text/html" ∧
      200 ≤ recC3.http_status_code ∧ recC3.http_status_code < 299)) :=
  ⟨by decide,
    c4_amended.1 "example.warc" sC3.toList [recC3] recC3 (by decide) (by decide)⟩

/-- Claim C5: the emitted sequence is ordered by offset, each offset
step being at least the record extent; in plain mode the next offset
is the previous one plus the header block length plus the parsed
content length plus four, and in gzip mode the offsets are the
partial sums of the member sizes. Stated over the instrumented plain
run, whose projection is the plain run itself, over the record
anatomy of parseRecordAt, and over the gzip run. -/
theorem c5_offsets :
    (∀ name s fuel pos ps, warcRecordsPlainAnnGo name s fuel pos = some ps →
      List.Chain' (fun a b => b.1.offset = a.1.offset + a.2) ps ∧
      List.Chain' (fun a b => a.1.offset + a.2 ≤ b.1.offset)
        (ps.filter (fun p => retainB p.1))) ∧
    (∀ name s fuel pos,
      (warcRecordsPlainAnnGo name s fuel pos).map (List.map Prod.fst) =
        warcRecordsPlainGo name s fuel pos) ∧
    (∀ name off content r adv, parseRecordAt name off content = .record r adv →
      r.offset = off ∧
      ∃ block rest r1, read_header_block content = some (block, rest) ∧
        process_headers { initRecord name off with header_length := block.length } block =
          some r1 ∧
        adv = block.length + r1.content_length + 4) ∧
    (∀ name off frames rs, warcRecordsGzipGo name off frames = some rs →
      rs.map IndexRecord.offset =
        offsetsFrom off ((frames.map Frame.rawLen).take rs.length)) := by
  refine ⟨?_, ?_, ?_, ?_⟩
  · intro name s fuel pos ps h
    have hchain := annGo_chain name s fuel pos ps h
    refine ⟨hchain, ?_⟩
    have hpw := chainExt_pairwise ps hchain
    exact (hpw.sublist (List.filter_sublist ps)).chain'
  · intro name s fuel pos
    exact annGo_fst name s fuel pos
  · intro name off content r adv h
    obtain ⟨ho, _, block, rest, r1, h1, _, h3, h4, h5⟩ := parseRecordAt_spec _ _ _ _ _ h
    exact ⟨ho, block, rest, r1, h1, h3, h5⟩
  · intro name off frames rs h
    exact gzipGo_offsets name frames off rs h

/-- Witness for claim C5 on a concrete two record file. -/
theorem c5_offsets_witness :
    warcRecordsPlainAnnGo "example.warc" sC5.toList (sC5.toList.length + 1) 0 =
      some [(recC3, 222), ({ recC3 with offset := 222 }, 222)] ∧
    List.Chain' (fun a b => b.1.offset = a.1.offset + a.2)
      [(recC3, 222), (({ recC3 with offset := 222 } : IndexRecord), 222)] :=
  ⟨by decide,
    (c5_offsets.1 "example.warc" sC5.toList (sC5.toList.length + 1) 0
      [(recC3, 222), ({ recC3 with offset := 222 }, 222)] (by decide)).1⟩

/-- Claim C7 counterexample: the claim says no record whose URL has
scheme urn appears in the retained sequence, but the filter never
looks at the URL: a response record with an embedded HTTP message,
mime text/html and status 200 whose target URI is a urn is retained. -/
theorem c7_counterexample :
    warcRecordsPlain "example.warc" sC7.toList = some [recC7] ∧
    recC7.url = "urn:pageinfo:archive.org" ∧
    isPrefixL ("urn".toList) recC7.url.toList = true ∧
    indexer_plain "example.warc" sC7.toList = some [recC7] := by
  decide

/-- Claim C7 amended: a record whose URL starts with urn appears in
the retained sequence exactly when it passes the retention test;
the URL scheme itself is never consulted. -/
theorem c7_amended :
    ∀ name s rs r, warcRecordsPlain name s = some rs →
    isPrefixL ("urn".toList) r.url.toList = true →
    (indexer_plain name s = some (rs.filter retainB) ∧
      (r ∈ rs.filter retainB ↔ (r ∈ rs ∧ retainB r = true))) := by
  intro name s rs r h _
  refine ⟨by unfold indexer_plain; rw [h]; rfl, List.mem_filter⟩

/-- Witness for the amended claim C7 on the concrete urn record. -/
theorem c7_amended_witness :
    warcRecordsPlain "example.warc" sC7.toList = some [recC7] ∧
    isPrefixL ("urn".toList) recC7.url.toList = true ∧
    (recC7 ∈ [recC7].filter retainB ↔ (recC7 ∈ [recC7] ∧ retainB recC7 = true)) :=
  ⟨by decide, by decide,
    (c7_amended "example.warc" sC7.toList [recC7] recC7 (by decide) (by decide)).2⟩

/-- Frame whose decompressed content is a WARC 1.0 record, failing
the WARC/1.1 magic check. -/
def sC8frame : Frame :=
  ⟨30, "WARC/1.0\r\nContent-Length: 0\r\n\r\n".toList⟩

/-- Claim C8: the claim, following the specification, says a frame
whose content does not start with WARC/1.1 is rejected with a
MalformedRecord error. The code returns None from the iterator
instead, under a comment saying this should be an error: the run
ends silently with an empty sequence, dropping even a valid record
in a later frame, and no error channel fires. -/
theorem c8_magic_silent_end :
    warcRecordsGzip "example.warc.gz" [sC8frame] = some [] ∧
    warcRecordsGzip "example.warc.gz" [sC8frame, ⟨222, sC3.toList⟩] = some [] ∧
    warcRecordsPlain "example.warc" ("WARC/1.0\r\nContent-Length: 0\r\n\r\n".toList) =
      some [] := by
  decide

/-- Claim C10: read_header_block returns a block exactly when a line
consisting of exactly carriage return and newline occurs before the
end of the input, the block being the concatenation of every line up
to and including that terminator; since a lone newline is a one byte
line, a header using bare newlines runs to the end of the input and
yields none. -/
theorem c10_read_header_block :
    (∀ input : List Char,
      (read_header_block input).map Prod.fst = headerBlockSpec (linesOf input)) ∧
    (∀ input : List Char, (∀ l ∈ linesOf input, l ≠ ['\r', '\n']) →
      read_header_block input = none) := by
  have hmain : ∀ input : List Char,
      (read_header_block input).map Prod.fst = headerBlockSpec (linesOf input) := by
    intro input
    have h := readHeaderGo_spec (input.length + 1) input [] (by omega)
    unfold read_header_block
    rw [h]
    cases headerBlockSpec (linesOf input) with
    | none => rfl
    | some b => simp
  refine ⟨hmain, ?_⟩
  intro input hno
  have haux : ∀ ls : List (List Char), (∀ l ∈ ls, l ≠ ['\r', '\n']) →
      headerBlockSpec ls = none := by
    intro ls
    induction ls with
    | nil => intro _; rfl
    | cons l rest ih =>
      intro h
      have hl := h l (List.mem_cons_self l rest)
      simp only [headerBlockSpec, if_neg hl]
      rw [ih (fun x hx => h x (List.mem_cons_of_mem l hx))]
      rfl
  have h1 := hmain input
  rw [haux (linesOf input) hno] at h1
  cases hrb : read_header_block input with
  | none => rfl
  | some p => rw [hrb] at h1; cases h1

/-- Claim C3 counterexample: the claim says the length value written
in the CDXJ JSON is the byte count of the record in the original
file, here the header length plus the content length plus four. The
code writes the WARC Content-Length instead: on a one record file of
222 bytes whose record spans the whole file, the written length is
44. -/
theorem c3_counterexample :
    warcRecordsPlain "example.warc" sC3.toList = some [recC3] ∧
    retainB recC3 = true ∧
    (to_cdxj_string [recC3]).bind lengthField = some 44 ∧
    recC3.content_length = 44 ∧
    recC3.header_length + recC3.content_length + 4 = 222 ∧
    sC3.toList.length = 222 ∧
    (44 : Nat) ≠ 222 := by
  decide

/-- Claim C3 amended: the length value written in the CDXJ JSON is
the record content_length field, the WARC Content-Length, not the
byte extent of the record in the file. -/
theorem c3_amended (r : IndexRecord) (surt : String) (ts : Rfc3339Time)
    (h1 : create_surt r.url = .ok surt)
    (h2 : parseRfc3339 r.timestamp = some ts) :
    cdxjLine r = some (surt ++ " " ++ chronoDisplay ts ++
      " \x7b\"url\":\"" ++ r.url ++
      "\",\"digest\":\"" ++ r.digest ++
      "\",\"mime\":\"" ++ r.mime_type ++
      "\",\"offset\":" ++ toString r.offset ++
      ",\"length\":" ++ toString r.content_length ++
      ",\"status\":" ++ toString r.http_status_code ++
      ",\"filename\":\"" ++ r.file_name ++ "\"\x7d\n") := by
  unfold cdxjLine
  rw [h1, h2]

/-- Witness for the amended claim C3 on a concrete record. -/
theorem c3_amended_witness :
    create_surt recC1.url = .ok "org,archive)/" ∧
    parseRfc3339 recC1.timestamp = some ⟨2025, 8, 6, 14, 37, 28, false, 1, 0⟩ ∧
    (cdxjLine recC1).isSome = true :=
  ⟨by decide, by decide,
    by rw [c3_amended recC1 "org,archive)/" ⟨2025, 8, 6, 14, 37, 28, false, 1, 0⟩
        (by decide) (by decide)]; rfl⟩

/-- A split at a separator succeeds exactly on inputs holding it. -/
lemma splitOnceList_isSome (sep : Char) :
    ∀ l : List Char, hasChar sep l = true → (splitOnceList sep l).isSome = true := by
  intro l
  induction l with
  | nil => intro h; cases h
  | cons x t ih =>
    intro h
    simp only [hasChar] at h
    simp only [splitOnceList]
    split at h
    · next hx => simp [hx]
    · next hx =>
      rw [if_neg hx]
      have := ih h
      cases hs : splitOnceList sep t with
      | none => rw [hs] at this; cases this
      | some p => rfl

/-- A successful split shows the separator occurs. -/
lemma hasChar_of_splitOnceList (sep : Char) :
    ∀ l a b, splitOnceList sep l = some (a, b) → hasChar sep l = true := by
  intro l
  induction l with
  | nil => intro a b h; cases h
  | cons x t ih =>
    intro a b h
    simp only [splitOnceList] at h
    simp only [hasChar]
    split at h
    · next hx => rw [if_pos hx]
    · next hx =>
      rw [if_neg hx]
      cases hs : splitOnceList sep t with
      | none => rw [hs] at h; cases h
      | some p => exact ih p.1 p.2 (by rw [hs])

/-- The surt body succeeds exactly when a slash is present. -/
lemma surtBody_ok (rest : List Char) (h : hasChar '/' rest = true) :
    ∃ s, surtBody rest = .ok s := by
  have hs := splitOnceList_isSome '/' rest h
  cases hp : splitOnceList '/' rest with
  | none => rw [hp] at hs; cases hs
  | some p =>
    obtain ⟨a, b⟩ := p
    exact ⟨String.mk (joinComma (splitChar '.' a).reverse ++ ')' :: '/' :: b),
      by unfold surtBody; rw [hp]⟩

/-- A successful surt body shows the slash was present. -/
lemma surtBody_ok_hasChar (rest : List Char) (s : String) (h : surtBody rest = .ok s) :
    hasChar '/' rest = true := by
  unfold surtBody at h
  cases hp : splitOnceList '/' rest with
  | none => rw [hp] at h; cases h
  | some p => exact hasChar_of_splitOnceList '/' rest p.1 p.2 (by rw [hp])

/-- Claim C9: to_cdxj_string is free of the surt panic exactly under
the precondition that every URL starts with http or https and holds
a slash after the stripped prefix: under the precondition create_surt
returns a key, any URL the precondition rejects yields no key, and a
retained looking record with a urn URL drives to_cdxj_string into the
unwrap of a None, modelled as none. -/
theorem c9_surt_precondition :
    (∀ u, surtPrecond u = true → ∃ s, create_surt u = .ok s) ∧
    (∀ u s, create_surt u = .ok s → surtPrecond u = true) ∧
    to_cdxj_string [recC9] = none := by
  refine ⟨?_, ?_, by decide⟩
  · intro u h
    unfold surtPrecond at h
    unfold create_surt
    by_cases h5 : isPrefixL ("https".toList) u.toList = true
    · rw [if_pos h5] at h ⊢
      rw [Bool.and_eq_true] at h
      obtain ⟨hlen, hslash⟩ := h
      rw [if_pos (of_decide_eq_true hlen)]
      exact surtBody_ok _ hslash
    · rw [if_neg h5] at h ⊢
      by_cases h4 : isPrefixL ("http".toList) u.toList = true
      · rw [if_pos h4] at h ⊢
        rw [Bool.and_eq_true] at h
        obtain ⟨hlen, hslash⟩ := h
        rw [if_pos (of_decide_eq_true hlen)]
        exact surtBody_ok _ hslash
      · rw [if_neg h4] at h
        cases h
  · intro u s h
    unfold create_surt at h
    unfold surtPrecond
    by_cases h5 : isPrefixL ("https".toList) u.toList = true
    · rw [if_pos h5] at h ⊢
      by_cases hlen : 8 ≤ u.toList.length
      · rw [if_pos hlen] at h
        rw [Bool.and_eq_true, decide_eq_true_eq]
        exact ⟨hlen, surtBody_ok_hasChar _ _ h⟩
      · rw [if_neg hlen] at h
        cases h
    · rw [if_neg h5] at h ⊢
      by_cases h4 : isPrefixL ("http".toList) u.toList = true
      · rw [if_pos h4] at h ⊢
        by_cases hlen : 7 ≤ u.toList.length
        · rw [if_pos hlen] at h
          rw [Bool.and_eq_true, decide_eq_true_eq]
          exact ⟨hlen, surtBody_ok_hasChar _ _ h⟩
        · rw [if_neg hlen] at h
          cases h
      · rw [if_neg h4] at h
        by_cases hu : isPrefixL ("urn".toList) u.toList = true
        · rw [if_pos hu] at h
          cases h
        · rw [if_neg hu] at h
          cases h

/-- Witness for claim C9 on a concrete accepted URL. -/
theorem c9_surt_precondition_witness :
    surtPrecond "http://archive.org/" = true ∧
    ∃ s, create_surt "http://archive.org/" = .ok s :=
  ⟨by decide, c9_surt_precondition.1 "http://archive.org/" (by decide)⟩

/-- Splitting on a separator always yields at least one piece. -/
lemma splitChar_ne_nil (sep : Char) : ∀ l : List Char, splitChar sep l ≠ [] := by
  intro l
  cases l with
  | nil => simp [splitChar]
  | cons x t =>
    simp only [splitChar]
    split
    · simp
    · split
      · simp
      · simp

/-- Every character of a split piece comes from the split input. -/
lemma mem_splitChar (sep : Char) :
    ∀ l p, p ∈ splitChar sep l → ∀ c ∈ p, c ∈ l := by
  intro l
  induction l with
  | nil =>
    intro p hp c hc
    simp only [splitChar, List.mem_singleton] at hp
    subst hp
    cases hc
  | cons x t ih =>
    intro p hp c hc
    simp only [splitChar] at hp
    by_cases hx : x = sep
    · rw [if_pos hx] at hp
      rcases List.mem_cons.mp hp with hpe | hpt
      · subst hpe; cases hc
      · exact List.mem_cons_of_mem x (ih p hpt c hc)
    · rw [if_neg hx] at hp
      cases hs : splitChar sep t with
      | nil => exact absurd hs (splitChar_ne_nil sep t)
      | cons l0 ls0 =>
        rw [hs] at hp
        rcases List.mem_cons.mp hp with hpe | hpt
        · subst hpe
          rcases List.mem_cons.mp hc with hce | hcl
          · subst hce; exact List.mem_cons_self c t
          · have hl0 : l0 ∈ splitChar sep t := by rw [hs]; exact List.mem_cons_self l0 ls0
            exact List.mem_cons_of_mem x (ih l0 hl0 c hcl)
        · have hpt2 : p ∈ splitChar sep t := by rw [hs]; exact List.mem_cons_of_mem l0 hpt
          exact List.mem_cons_of_mem x (ih p hpt2 c hc)

/-- Every character of a comma join is a comma or a piece character. -/
lemma mem_joinComma :
    ∀ ps : List (List Char), ∀ c, c ∈ joinComma ps → c = ',' ∨ ∃ p ∈ ps, c ∈ p := by
  intro ps
  induction ps with
  | nil => intro c hc; cases hc
  | cons p ps2 ih =>
    intro c hc
    cases ps2 with
    | nil =>
      right
      exact ⟨p, List.mem_cons_self p [], by simpa [joinComma] using hc⟩
    | cons q ps3 =>
      simp only [joinComma] at hc
      rcases List.mem_append.mp hc with hcp | hct
      · right; exact ⟨p, List.mem_cons_self p (q :: ps3), hcp⟩
      · rcases List.mem_cons.mp hct with hce | hcj
        · left; exact hce
        · rcases ih c hcj with hcomma | ⟨p2, hp2, hcp2⟩
          · left; exact hcomma
          · right; exact ⟨p2, List.mem_cons_of_mem p hp2, hcp2⟩

/-- A successful single split reassembles around the separator. -/
lemma splitOnceList_append (sep : Char) :
    ∀ l a b, splitOnceList sep l = some (a, b) → l = a ++ sep :: b := by
  intro l
  induction l with
  | nil => intro a b h; cases h
  | cons x t ih =>
    intro a b h
    simp only [splitOnceList] at h
    by_cases hx : x = sep
    · rw [if_pos hx] at h
      obtain ⟨ha, hb⟩ := Prod.mk.injEq .. ▸ Option.some.inj h
      subst ha
      subst hb
      rw [hx]
      rfl
    · rw [if_neg hx] at h
      cases hs : splitOnceList sep t with
      | none => rw [hs] at h; cases h
      | some p =>
        rw [hs] at h
        obtain ⟨ha, hb⟩ := Prod.mk.injEq .. ▸ Option.some.inj h
        subst ha
        subst hb
        rw [ih p.1 p.2 (by rw [hs])]
        rfl

/-- Every character of a surt key is a character of the stripped URL
or one of comma, closing parenthesis and slash. -/
lemma surtBody_chars (rest : List Char) (s : String) (h : surtBody rest = .ok s) :
    ∀ c ∈ s.toList, c ∈ rest ∨ c = ',' ∨ c = ')' ∨ c = '/' := by
  unfold surtBody at h
  cases hp : splitOnceList '/' rest with
  | none => rw [hp] at h; cases h
  | some p =>
    obtain ⟨host, path⟩ := p
    rw [hp] at h
    have hs := SurtOutcome.ok.inj h
    have hrest := splitOnceList_append '/' rest host path hp
    intro c hc
    rw [← hs] at hc
    have hc2 : c ∈ joinComma (splitChar '.' host).reverse ++ ')' :: '/' :: path := hc
    rcases List.mem_append.mp hc2 with hcj | hcr
    · rcases mem_joinComma _ c hcj with hcomma | ⟨piece, hpiece, hcp⟩
      · right; left; exact hcomma
      · have hpc : piece ∈ splitChar '.' host := List.mem_reverse.mp hpiece
        have : c ∈ host := mem_splitChar '.' host piece hpc c hcp
        left
        rw [hrest]
        exact List.mem_append_left _ this
    · rcases List.mem_cons.mp hcr with hce | hcr2
      · right; right; left; exact hce
      · rcases List.mem_cons.mp hcr2 with hce2 | hcpath
        · right; right; right; exact hce2
        · left
          rw [hrest]
          exact List.mem_append_right _ (List.mem_cons_of_mem _ hcpath)

/-- Claim C6 counterexample: the claim says the entire emitted surt
key is lowercase for every accepted URL, but create_surt applies no
case folding: an accepted URL with uppercase letters yields a key
with the same uppercase letters. -/
theorem c6_counterexample :
    create_surt "http://WWW.Archive.Org/Foo" = .ok "Org,Archive,WWW)/Foo" ∧
    isLowerStr "Org,Archive,WWW)/Foo" = false := by
  decide

/-- Claim C6 amended: create_surt applies no case folding; the key it
emits is lowercase whenever the accepted URL is lowercase, because
every key character is a character of the URL or one of comma,
closing parenthesis and slash. -/
theorem c6_amended (u s : String) (h : create_surt u = .ok s)
    (hlow : isLowerStr u = true) : isLowerStr s = true := by
  have hfix : ∀ c ∈ u.toList, toLowerAscii c = c := by
    intro c hc
    have := List.all_eq_true.mp hlow c hc
    exact of_decide_eq_true this
  have hchars : ∀ c ∈ s.toList, c ∈ u.toList ∨ c = ',' ∨ c = ')' ∨ c = '/' := by
    unfold create_surt at h
    by_cases h5 : isPrefixL ("https".toList) u.toList = true
    · rw [if_pos h5] at h
      by_cases hlen : 8 ≤ u.toList.length
      · rw [if_pos hlen] at h
        intro c hc
        rcases surtBody_chars _ _ h c hc with hdrop | hrest2
        · left; exact List.drop_subset 8 u.toList hdrop
        · right; exact hrest2
      · rw [if_neg hlen] at h; cases h
    · rw [if_neg h5] at h
      by_cases h4 : isPrefixL ("http".toList) u.toList = true
      · rw [if_pos h4] at h
        by_cases hlen : 7 ≤ u.toList.length
        · rw [if_pos hlen] at h
          intro c hc
          rcases surtBody_chars _ _ h c hc with hdrop | hrest2
          · left; exact List.drop_subset 7 u.toList hdrop
          · right; exact hrest2
        · rw [if_neg hlen] at h; cases h
      · rw [if_neg h4] at h
        by_cases hu : isPrefixL ("urn".toList) u.toList = true
        · rw [if_pos hu] at h; cases h
        · rw [if_neg hu] at h; cases h
  apply List.all_eq_true.mpr
  intro c hc
  apply decide_eq_true
  rcases hchars c hc with hcu | hcomma | hparen | hslash
  · exact hfix c hcu
  · rw [hcomma]; decide
  · rw [hparen]; decide
  · rw [hslash]; decide

/-- Witness for claim C10 on a concrete header block using bare
newline line endings. -/
theorem c10_read_header_block_witness :
    (∀ l ∈ linesOf ("WARC/1.1\nfoo: bar\n\n".toList), l ≠ ['\r', '\n']) ∧
    read_header_block ("WARC/1.1\nfoo: bar\n\n".toList) = none :=
  ⟨by decide, c10_read_header_block.2 ("WARC/1.1\nfoo: bar\n\n".toList) (by decide)⟩

/-- Witness for the amended claim C6 on a concrete lowercase URL. -/
theorem c6_amended_witness :
    create_surt "http://archive.org/" = .ok "org,archive)/" ∧
    isLowerStr "http://archive.org/" = true ∧
    isLowerStr "org,archive)/" = true :=
  ⟨by decide, by decide,
    c6_amended "http://archive.org/" "org,archive)/" (by decide) (by decide)⟩

end Wacksy
